import Mathlib

/-!
# Verification of the release-contributors migration utility

Shallow embedding of the repository's core logic:

* the text-substitution engine `updateUsernamesInReleaseNotes`
  (src/helpers/common.mjs), which rewrites `@oldHandle` mentions to
  `@newHandle` using a JS regular expression
  `@old(?!-lastSegmentOfNew)\b` applied globally for each mapping entry
  in iteration order;
* the backup manager `createBackup` / `createBackupIndex`
  (src/helpers/backup.mjs);
* the update orchestrator `processRepositoryReleases` / `updateRelease`
  (src/update-release-contributors.mjs);
* the restore tool `restoreRepositoryFromBackup` / `restoreRelease` and
  its backup-file selection (src/restore-from-backup.mjs).

Handles are modelled as plain character lists; the interpolated handle is
treated as a literal string inside the regular expression (GitHub handles
contain only alphanumerics and hyphens, none of which are regex
metacharacters).  Filesystem and network effects are modelled by passing
the relevant outcomes (directory listings, write success, per-call remote
success) explicitly.
-/

namespace Migration

/-- JS regex word character (`\w` without the `u` flag): ASCII letters,
digits and underscore. -/
def isWordChar (c : Char) : Bool :=
  c.isAlphanum || c = '_'

/-- `newUsername.split('-').slice(-1)[0]`: the final hyphen-delimited
segment of a handle (the whole handle when it has no hyphen, the empty
string when it ends in a hyphen). -/
def lastSeg (s : List Char) : List Char :=
  (s.reverse.takeWhile (fun c => c ≠ '-')).reverse

/-- Whether the text continues with a word character (end of input counts
as a non-word position, as for the JS `\b` assertion). -/
def nextIsWord : List Char → Bool
  | [] => false
  | c :: _ => isWordChar c

/-- The JS regex `@old(?!-last)\b` matches at the head of `s`:
`s` starts with `@old`, the text after it does not start with `-last`
(negative lookahead), and a word boundary separates the last matched
character from the following text. -/
def matchesAt (old last s : List Char) : Bool :=
  (('@' :: old).isPrefixOf s) &&
  !(('-' :: last).isPrefixOf (s.drop (old.length + 1))) &&
  (isWordChar (('@' :: old).getLast (by simp)) != nextIsWord (s.drop (old.length + 1)))

/-- One global pass of `updatedBody.replace(oldPattern, newReference)`:
scan left to right; on a match consume `@old` (the lookahead and the
boundary are zero-width) and emit `@new`, never re-scanning the emitted
replacement; otherwise keep the character and continue.  `fuel` bounds
the recursion and is irrelevant whenever it is at least the length of
the text (see `replaceMentionsAux_congr`). -/
def replaceMentionsAux (old new last : List Char) : Nat → List Char → List Char
  | 0, s => s
  | _ + 1, [] => []
  | fuel + 1, c :: rest =>
    if matchesAt old last (c :: rest) then
      ('@' :: new) ++ replaceMentionsAux old new last fuel (rest.drop old.length)
    else
      c :: replaceMentionsAux old new last fuel rest

/-- One mapping entry applied to a text, as in the body of the
`for (const [oldUsername, newUsername] of Object.entries(...))` loop. -/
def replaceMentions (old new : List Char) (s : List Char) : List Char :=
  replaceMentionsAux old new (lastSeg new) s.length s

/-- The whole entry loop of `updateUsernamesInReleaseNotes`: mapping
entries applied sequentially, in iteration order, each over the
progressively rewritten text. -/
def substituteAll (s : List Char) (m : List (List Char × List Char)) : List Char :=
  m.foldl (fun acc e => replaceMentions e.1 e.2 acc) s

/-- `updateUsernamesInReleaseNotes(body, usernameMapping)` from
src/helpers/common.mjs.  `body` is `string | null`; a falsy body
(`null` or the empty string) is returned unchanged. -/
def updateUsernamesInReleaseNotes (body : Option String)
    (usernameMapping : List (String × String)) : Option String :=
  match body with
  | none => none
  | some b =>
    if b = "" then some b
    else some ⟨substituteAll b.data (usernameMapping.map fun e => (e.1.data, e.2.data))⟩

end Migration

namespace Migration

/-! ## Backup manager (src/helpers/backup.mjs)

Releases as returned by the remote provider carry more fields than the
backup captures; `RemoteRelease` models the seven captured fields plus a
few representative remote-only fields (`draft`, `prerelease`,
`target_commitish`) that `createBackup` discards.  Filesystem effects are
modelled by an explicit write-success flag and an explicit clock value. -/

/-- A release as returned by the remote provider's list-releases call. -/
structure RemoteRelease where
  id : Nat
  tag_name : String
  name : String
  body : Option String
  created_at : String
  published_at : String
  html_url : String
  draft : Bool
  prerelease : Bool
  target_commitish : String
deriving DecidableEq

/-- The per-release field subset captured by a backup: exactly
`id`, `tag_name`, `name`, `body`, `created_at`, `published_at`,
`html_url`, nothing else. -/
structure BackupRelease where
  id : Nat
  tag_name : String
  name : String
  body : Option String
  created_at : String
  published_at : String
  html_url : String
deriving DecidableEq

/-- The projection performed by `releases.map(release => ({...}))` inside
`createBackup`. -/
def backupReleaseOfRemote (r : RemoteRelease) : BackupRelease :=
  { id := r.id, tag_name := r.tag_name, name := r.name, body := r.body,
    created_at := r.created_at, published_at := r.published_at,
    html_url := r.html_url }

/-- The JSON document written by `createBackup`. -/
structure BackupData where
  repository : String
  backup_timestamp : String
  total_releases : Nat
  releases : List BackupRelease
  note : Option String
deriving DecidableEq

/-- `generateBackupTimestamp`: the ISO timestamp with every `:` and `.`
replaced by `-`. -/
def generateBackupTimestamp (now : String) : String :=
  ⟨now.data.map fun c => if c = ':' ∨ c = '.' then '-' else c⟩

/-- The `options` argument of `createBackup`. -/
structure BackupOptions where
  type : String := "release"
  note : Option String := none

/-- `createBackup(owner, repo, releases, options)`: builds the backup
document and writes it under a kind- and repository-specific path with
an embedded timestamp.  Any filesystem failure is caught and surfaces as
`null` (`none`); on success the path is returned.  The model also
returns the written document so theorems can speak about its content. -/
def createBackup (writeOk : Bool) (now : String) (owner repo : String)
    (releases : List RemoteRelease) (options : BackupOptions) :
    Option (String × BackupData) :=
  let isTest := options.type = "test"
  let baseDir := if isTest then "./test-backups" else "./backups"
  let backupDir := baseDir ++ "/" ++ owner ++ "/" ++ repo
  let filename := if isTest then "test-backup" else "releases-backup"
  let timestamp := generateBackupTimestamp now
  let backupFile := backupDir ++ "/" ++ filename ++ "-" ++ timestamp ++ ".json"
  let backupData : BackupData :=
    { repository := owner ++ "/" ++ repo,
      backup_timestamp := now,
      total_releases := releases.length,
      releases := releases.map backupReleaseOfRemote,
      note := if isTest then
          some (options.note.getD "This is a TEST backup - no actual updates were made")
        else none }
  if writeOk then some (backupFile, backupData) else none

/-- `createTestBackup`: a backup with `type: 'test'`. -/
def createTestBackup (writeOk : Bool) (now : String) (owner repo : String)
    (releases : List RemoteRelease) : Option (String × BackupData) :=
  createBackup writeOk now owner repo releases { type := "test" }

/-- `createReleaseBackup`: a backup with `type: 'release'`. -/
def createReleaseBackup (writeOk : Bool) (now : String) (owner repo : String)
    (releases : List RemoteRelease) : Option (String × BackupData) :=
  createBackup writeOk now owner repo releases { type := "release" }

/-- One backup file as enumerated by a directory scan, in directory
listing order. -/
structure BackupFileInfo where
  file : String
  path : String
  size : Nat
deriving DecidableEq

/-- One `(owner, repo)` group of backup files, as pushed onto
`backupIndex.repositories` (and onto the restore tool's backup list). -/
structure BackupIndexEntry where
  owner : String
  repo : String
  backup_files : List BackupFileInfo
deriving DecidableEq

/-- The consolidated index document written by `createBackupIndex`. -/
structure BackupIndex where
  created_at : String
  total_repositories : Nat
  total_releases : Nat
  repositories : List BackupIndexEntry
deriving DecidableEq

/-- `createBackupIndex()`: starts from an index document with
`total_repositories: 0`, `total_releases: 0`, `repositories: []` and, for
each `(ownerDir, repoDir)` pair found on disk (modelled by `scan`, in
scan order), pushes the entry and increments `total_repositories`.
Nothing in the loop ever touches `total_releases`. -/
def createBackupIndex (now : String) (scan : List BackupIndexEntry) : BackupIndex :=
  scan.foldl
    (fun idx entry =>
      { idx with
        repositories := idx.repositories ++ [entry],
        total_repositories := idx.total_repositories + 1 })
    { created_at := now, total_repositories := 0, total_releases := 0,
      repositories := [] }

end Migration

namespace Migration

/-! ## Update orchestrator (src/update-release-contributors.mjs) -/

/-- Remote and filesystem outcomes relevant to processing one
repository: the result of the list-releases call (`none` models a
thrown/failed request), whether the backup write succeeds, the current
clock, and per-release-id success of the update-release call. -/
structure RepoEnv where
  listing : Option (List RemoteRelease)
  backupWriteOk : Bool
  now : String
  updateOk : Nat → Bool

/-- `getAllReleases`: returns the listed releases, or `[]` when the
remote call fails (the error is caught and logged). -/
def getAllReleases (env : RepoEnv) : List RemoteRelease :=
  match env.listing with
  | some releases => releases
  | none => []

/-- `updateRelease(owner, repo, releaseId, releaseData)`: computes the
substituted body; if it equals the current body, returns `false` with no
remote call; otherwise issues exactly one update-body call (recorded as
`(releaseId, newBody)`) and returns `true` on success, `false` when the
remote call fails (the error is caught).  The call record is returned
alongside the flag. -/
def updateRelease (env : RepoEnv) (usernameMapping : List (String × String))
    (releaseId : Nat) (releaseData : RemoteRelease) :
    Bool × List (Nat × Option String) :=
  let updatedBody := updateUsernamesInReleaseNotes releaseData.body usernameMapping
  if updatedBody = releaseData.body then (false, [])
  else if env.updateOk releaseId then (true, [(releaseId, updatedBody)])
  else (false, [(releaseId, updatedBody)])

/-- `backupReleaseNotes`: delegates to `createReleaseBackup`, returning
`null` (`none`) when the backup could not be written. -/
def backupReleaseNotes (env : RepoEnv) (owner repo : String)
    (releases : List RemoteRelease) : Option (String × BackupData) :=
  createReleaseBackup env.backupWriteOk env.now owner repo releases

/-- The per-repository result object of `processRepositoryReleases`. -/
structure ProcessResult where
  processed : Nat
  updated : Nat
  error : Bool
  backupFile : Option String
deriving DecidableEq

/-- Observable side effects of processing one repository: whether a
backup write was attempted, whether it succeeded, and the list of
update-body calls issued to the remote provider, in order. -/
structure RepoTrace where
  backupAttempted : Bool
  backupWritten : Bool
  updateCalls : List (Nat × Option String)
deriving DecidableEq

/-- The `for (const release of releases)` loop of
`processRepositoryReleases`: accumulates the updated count and the
issued calls. -/
def processReleasesLoop (env : RepoEnv) (m : List (String × String)) :
    List RemoteRelease → Nat × List (Nat × Option String)
  | [] => (0, [])
  | r :: rest =>
    let step := updateRelease env m r.id r
    let restRes := processReleasesLoop env m rest
    ((if step.1 then 1 else 0) + restRes.1, step.2 ++ restRes.2)

/-- `processRepositoryReleases(owner, repo)`: fetches releases (zero
releases short-circuits with `{processed: 0, updated: 0}`), creates the
backup, then runs the update loop.  Note that the loop runs regardless
of whether `backupFile` is `null`: the code never inspects the backup
result before updating. -/
def processRepositoryReleases (env : RepoEnv) (m : List (String × String))
    (owner repo : String) : ProcessResult × RepoTrace :=
  let releases := getAllReleases env
  if releases.length = 0 then
    ({ processed := 0, updated := 0, error := false, backupFile := none },
     { backupAttempted := false, backupWritten := false, updateCalls := [] })
  else
    let backupFile := backupReleaseNotes env owner repo releases
    let loopRes := processReleasesLoop env m releases
    ({ processed := releases.length, updated := loopRes.1, error := false,
       backupFile := backupFile.map (fun p => p.1) },
     { backupAttempted := true, backupWritten := backupFile.isSome,
       updateCalls := loopRes.2 })

end Migration

namespace Migration

/-! ## Restore tool (src/restore-from-backup.mjs) -/

/-- `listAvailableBackups` of the restore tool: prefers the consolidated
index document when present, otherwise falls back to a live directory
scan. -/
def listAvailableBackups (indexFile : Option BackupIndex)
    (scan : List BackupIndexEntry) : List BackupIndexEntry :=
  match indexFile with
  | some idx => idx.repositories
  | none => scan

/-- The backup file the restore tool actually replays for the selected
repository: `selectedBackup.backup_files[0].path`, the first file in
listing order, with no sorting or timestamp comparison. -/
def selectedBackupFile (selectedBackup : BackupIndexEntry) : Option String :=
  (selectedBackup.backup_files.head?).map fun f => f.path

/-- Strict lexicographic order on character lists, used to compare
backup file names. -/
def charListLt : List Char → List Char → Bool
  | [], [] => false
  | [], _ :: _ => true
  | _ :: _, [] => false
  | a :: as, b :: bs => if a < b then true else if b < a then false else charListLt as bs

/-- Modelled from the spec (§4.4): the backup file with the latest
backup timestamp.  Backup file names are
`releases-backup-<sanitized ISO timestamp>.json`; the sanitisation
replaces `:` and `.` by `-` uniformly, so comparing full file names
lexicographically orders them by timestamp.  This definition follows the
spec's words and exists only to be compared with the code's
`selectedBackupFile`. -/
def latestBackupFileBySpec (entry : BackupIndexEntry) : Option String :=
  (entry.backup_files.foldl
    (fun best f =>
      match best with
      | none => some f
      | some b => if charListLt b.file.data f.file.data then some f else some b)
    none).map fun f => f.path

/-- `restoreRelease(owner, repo, releaseId, backupData)`: issues exactly
one update-body call carrying the backed-up body verbatim, and reports
whether the call succeeded (a failure is caught and reported as
`false`). -/
def restoreRelease (ok : Nat → Bool) (releaseId : Nat)
    (backupData : BackupRelease) : Bool × List (Nat × Option String) :=
  (ok releaseId, [(releaseId, backupData.body)])

/-- The `for (const backupRelease of backupData.releases)` loop of
`restoreRepositoryFromBackup`: each backed-up release is matched against
the live releases by exact tag-name equality; an unmatched entry is
skipped (`continue`); a matched entry is restored, and a per-release
failure only affects the restored count. -/
def restoreLoop (ok : Nat → Bool) (currentReleases : List RemoteRelease) :
    List BackupRelease → Nat × List (Nat × Option String)
  | [] => (0, [])
  | b :: rest =>
    match currentReleases.find? (fun r => r.tag_name == b.tag_name) with
    | none => restoreLoop ok currentReleases rest
    | some currentRelease =>
      let step := restoreRelease ok currentRelease.id b
      let restRes := restoreLoop ok currentReleases rest
      ((if step.1 then 1 else 0) + restRes.1, step.2 ++ restRes.2)

/-- The result object of `restoreRepositoryFromBackup`. -/
structure RestoreResult where
  processed : Nat
  restored : Nat
deriving DecidableEq

/-- `restoreRepositoryFromBackup(owner, repo, backupFile)` after the
backup document has been read and the live releases fetched: an empty
backup short-circuits; otherwise the restore loop runs over every
backed-up release. -/
def restoreRepositoryFromBackup (ok : Nat → Bool) (backupData : BackupData)
    (currentReleases : List RemoteRelease) :
    RestoreResult × List (Nat × Option String) :=
  if backupData.releases.length = 0 then ({ processed := 0, restored := 0 }, [])
  else
    let loopRes := restoreLoop ok currentReleases backupData.releases
    ({ processed := backupData.releases.length, restored := loopRes.1 },
     loopRes.2)

/-! Concrete sample data used by witness theorems. -/

/-- Two sample remote releases for `acme/widgets`, carrying remote-only
fields (`draft`, `prerelease`, `target_commitish`) that a backup must
discard. -/
def sampleReleases : List RemoteRelease :=
  [⟨1, "v1.0.0", "one", some "b1", "c1", "p1", "u1", false, false, "main"⟩,
   ⟨2, "v2.0.0", "two", some "b2", "c2", "p2", "u2", true, false, "dev"⟩]

/-- The backup document `createBackup` writes for `sampleReleases` at
clock value `2024-01-01T00:00:00.000Z`. -/
def sampleBackupDocument : BackupData :=
  { repository := "acme/widgets",
    backup_timestamp := "2024-01-01T00:00:00.000Z",
    total_releases := 2,
    releases := [⟨1, "v1.0.0", "one", some "b1", "c1", "p1", "u1"⟩,
                 ⟨2, "v2.0.0", "two", some "b2", "c2", "p2", "u2"⟩],
    note := none }

/-- The repository directory holding two backup files in
directory-listing order: the 2024 file first, the 2025 file second. -/
def sampleBackupEntry : BackupIndexEntry :=
  { owner := "acme", repo := "widgets",
    backup_files :=
      [{ file := "releases-backup-2024-01-01T00-00-00-000Z.json",
         path := "./backups/acme/widgets/releases-backup-2024-01-01T00-00-00-000Z.json",
         size := 100 },
       { file := "releases-backup-2025-06-01T00-00-00-000Z.json",
         path := "./backups/acme/widgets/releases-backup-2025-06-01T00-00-00-000Z.json",
         size := 120 }] }

end Migration

namespace Migration

/-! ## Basic lemmas about the substitution scanner -/

theorem replaceMentionsAux_nil (old new last : List Char) (fuel : Nat) :
    replaceMentionsAux old new last fuel [] = [] := by
  cases fuel <;> rfl

theorem replaceMentionsAux_congr (old new last : List Char) :
    ∀ (f₁ f₂ : Nat) (s : List Char), s.length ≤ f₁ → s.length ≤ f₂ →
      replaceMentionsAux old new last f₁ s = replaceMentionsAux old new last f₂ s := by
  intro f₁
  induction f₁ with
  | zero =>
    intro f₂ s h₁ _
    have : s = [] := List.length_eq_zero.mp (Nat.le_zero.mp h₁)
    subst this
    simp [replaceMentionsAux_nil]
  | succ f ih =>
    intro f₂ s h₁ h₂
    cases s with
    | nil => simp [replaceMentionsAux_nil]
    | cons c rest =>
      cases f₂ with
      | zero => exact absurd h₂ (by simp)
      | succ g =>
        show (if matchesAt old last (c :: rest) then
            ('@' :: new) ++ replaceMentionsAux old new last f (rest.drop old.length)
          else c :: replaceMentionsAux old new last f rest) =
          (if matchesAt old last (c :: rest) then
            ('@' :: new) ++ replaceMentionsAux old new last g (rest.drop old.length)
          else c :: replaceMentionsAux old new last g rest)
        by_cases hm : matchesAt old last (c :: rest)
        · have hlen : (rest.drop old.length).length ≤ f := by
            have := List.length_drop old.length rest
            simp at h₁; omega
          have hlen₂ : (rest.drop old.length).length ≤ g := by
            have := List.length_drop old.length rest
            simp at h₂; omega
          rw [if_pos hm, if_pos hm, ih g _ hlen hlen₂]
        · have hlen : rest.length ≤ f := by simp at h₁; omega
          have hlen₂ : rest.length ≤ g := by simp at h₂; omega
          rw [if_neg hm, if_neg hm, ih g _ hlen hlen₂]

theorem replaceMentions_nil (old new : List Char) :
    replaceMentions old new [] = [] := rfl

theorem replaceMentions_cons_match (old new : List Char) (c : Char) (rest : List Char)
    (h : matchesAt old (lastSeg new) (c :: rest)) :
    replaceMentions old new (c :: rest) =
      ('@' :: new) ++ replaceMentions old new (rest.drop old.length) := by
  show (if matchesAt old (lastSeg new) (c :: rest) then
      ('@' :: new) ++ replaceMentionsAux old new (lastSeg new) rest.length (rest.drop old.length)
    else c :: replaceMentionsAux old new (lastSeg new) rest.length rest) = _
  rw [if_pos h]
  unfold replaceMentions
  congr 1
  exact replaceMentionsAux_congr _ _ _ _ _ _
    (by have := List.length_drop old.length rest; omega) le_rfl

theorem replaceMentions_cons_nomatch (old new : List Char) (c : Char) (rest : List Char)
    (h : ¬ matchesAt old (lastSeg new) (c :: rest)) :
    replaceMentions old new (c :: rest) = c :: replaceMentions old new rest := by
  show (if matchesAt old (lastSeg new) (c :: rest) then
      ('@' :: new) ++ replaceMentionsAux old new (lastSeg new) rest.length (rest.drop old.length)
    else c :: replaceMentionsAux old new (lastSeg new) rest.length rest) = _
  rw [if_neg h]
  rfl

/-- A match always begins with the literal `@`. -/
theorem matchesAt_head (old last : List Char) (c : Char) (rest : List Char)
    (h : matchesAt old last (c :: rest)) : c = '@' := by
  unfold matchesAt at h
  simp only [Bool.and_eq_true, List.isPrefixOf_iff_prefix] at h
  obtain ⟨⟨h₁, _⟩, _⟩ := h
  rcases h₁ with ⟨t, ht⟩
  simpa using congrArg (List.head? ·) ht.symm

theorem matchesAt_false_of_head_ne (old last : List Char) (c : Char) (rest : List Char)
    (h : c ≠ '@') : ¬ matchesAt old last (c :: rest) := fun hm =>
  h (matchesAt_head old last c rest hm)

/-- Text free of `@` passes through a single-entry pass untouched around
anything appended after it: matches can only start at an `@`. -/
theorem replaceMentions_append_no_at (old new : List Char) :
    ∀ (a x : List Char), (∀ c ∈ a, c ≠ '@') →
      replaceMentions old new (a ++ x) = a ++ replaceMentions old new x := by
  intro a
  induction a with
  | nil => intro x _; simp
  | cons c a' ih =>
    intro x ha
    have hc : c ≠ '@' := ha c (by simp)
    rw [List.cons_append,
      replaceMentions_cons_nomatch old new c (a' ++ x)
        (matchesAt_false_of_head_ne old (lastSeg new) c _ hc),
      ih x (fun d hd => ha d (by simp [hd]))]
    simp

theorem takeWhile_append_of_all (p : Char → Bool) :
    ∀ (a b : List Char), (∀ c ∈ a, p c) →
      (a ++ b).takeWhile p = a ++ b.takeWhile p := by
  intro a
  induction a with
  | nil => intro b _; simp
  | cons c a' ih =>
    intro b ha
    have hc : p c := ha c (by simp)
    simp [List.takeWhile_cons, hc, ih b (fun d hd => ha d (by simp [hd]))]

/-- `split('-').slice(-1)[0]` of `old ++ "-" ++ suffix` is `suffix`
whenever `suffix` itself contains no hyphen. -/
theorem lastSeg_append (old suffix : List Char) (h : '-' ∉ suffix) :
    lastSeg (old ++ '-' :: suffix) = suffix := by
  unfold lastSeg
  rw [List.reverse_append, List.reverse_cons,
    List.append_assoc,
    takeWhile_append_of_all _ suffix.reverse (['-'] ++ old.reverse)
      (by intro c hc; simp only [List.mem_reverse] at hc
          simp only [decide_eq_true_iff]
          intro hEq; exact h (hEq ▸ hc))]
  simp [List.takeWhile_cons]

/-- A migration-shaped pass (`new = old ++ "-" ++ suffix`) never changes
the first `old.length + 1` characters of the text. -/
theorem take_replaceMentions (old suffix : List Char) :
    ∀ (N : Nat) (s : List Char), s.length ≤ N → ∀ (n : Nat), n ≤ old.length + 1 →
      (replaceMentions old (old ++ '-' :: suffix) s).take n = s.take n := by
  intro N
  induction N with
  | zero =>
    intro s hs n _
    have : s = [] := List.length_eq_zero.mp (Nat.le_zero.mp hs)
    subst this
    simp [replaceMentions_nil]
  | succ N ih =>
    intro s hs n hn
    cases s with
    | nil => simp [replaceMentions_nil]
    | cons c rest =>
      by_cases hm : matchesAt old (lastSeg (old ++ '-' :: suffix)) (c :: rest)
      · rw [replaceMentions_cons_match old _ c rest hm]
        have hpre : ('@' :: old) <+: (c :: rest) := by
          have := hm
          unfold matchesAt at this
          simp only [Bool.and_eq_true, List.isPrefixOf_iff_prefix] at this
          exact this.1.1
        obtain ⟨t, ht⟩ := hpre
        have hgoal₂ : (c :: rest).take n = ('@' :: old).take n := by
          rw [← ht]
          exact List.take_append_of_le_length (by simpa using hn)
        have hgoal₁ :
            ((('@' :: (old ++ '-' :: suffix)) ++
              replaceMentions old (old ++ '-' :: suffix) (rest.drop old.length)).take n)
              = ('@' :: old).take n := by
          have hassoc : ('@' :: (old ++ '-' :: suffix)) = ('@' :: old) ++ ('-' :: suffix) := by
            simp
          rw [hassoc, List.append_assoc]
          exact List.take_append_of_le_length (by simpa using hn)
        rw [hgoal₁, hgoal₂]
      · rw [replaceMentions_cons_nomatch old _ c rest hm]
        cases n with
        | zero => simp
        | succ m =>
          have hrest : rest.length ≤ N := by simp at hs; omega
          rw [List.take_succ_cons, List.take_succ_cons,
            ih rest hrest m (by omega)]

/-- A migration-shaped pass preserves the head of the text. -/
theorem head_replaceMentions (old suffix : List Char) (s : List Char) :
    (replaceMentions old (old ++ '-' :: suffix) s).head? = s.head? := by
  have h := take_replaceMentions old suffix s.length s le_rfl 1 (by omega)
  have hh : ∀ (l : List Char), l.head? = (l.take 1).head? := by
    intro l; cases l <;> simp
  rw [hh, hh s, h]

/-- A migration-shaped pass cannot create a fresh occurrence of `old` at
the front of the text. -/
theorem not_prefix_replaceMentions (old suffix : List Char) (s : List Char)
    (h : ¬ old <+: s) : ¬ old <+: replaceMentions old (old ++ '-' :: suffix) s := by
  intro hpre
  apply h
  have h1 : old = (replaceMentions old (old ++ '-' :: suffix) s).take old.length :=
    List.prefix_iff_eq_take.mp hpre
  have h2 := take_replaceMentions old suffix s.length s le_rfl old.length (by omega)
  exact List.prefix_iff_eq_take.mpr (h1.trans h2)

theorem nextIsWord_congr {l l' : List Char} (h : l.head? = l'.head?) :
    nextIsWord l = nextIsWord l' := by
  cases l <;> cases l' <;> simp_all [nextIsWord]

/-- Unfolding of a match attempt at a literal `@`. -/
theorem matchesAt_cons_at_iff (old last : List Char) (rest : List Char) :
    matchesAt old last ('@' :: rest) = true ↔
      old <+: rest ∧ ¬ (('-' :: last) <+: rest.drop old.length) ∧
        isWordChar (('@' :: old).getLast (by simp)) ≠ nextIsWord (rest.drop old.length) := by
  unfold matchesAt
  simp [ List.isPrefixOf_iff_prefix, List.drop_succ_cons, bne_iff_ne,
    List.cons_prefix_cons, Bool.eq_false_iff, and_assoc]

/-- Core idempotence for a migration-shaped single mapping entry
`old ↦ old ++ "-" ++ suffix` (the new handle is the old handle with a
hyphen-separated disambiguation suffix appended, as in
`nghia-nguyen ↦ nghia-nguyen-4321`): a second pass of the regex
substitution leaves the output of the first pass unchanged. -/
theorem replaceMentions_idem_aux (old suffix : List Char)
    (hAtOld : '@' ∉ old) (hAtSuf : '@' ∉ suffix) (hHySuf : '-' ∉ suffix) :
    ∀ (N : Nat) (s : List Char), s.length ≤ N →
      replaceMentions old (old ++ '-' :: suffix)
          (replaceMentions old (old ++ '-' :: suffix) s)
        = replaceMentions old (old ++ '-' :: suffix) s := by
  have hlast : lastSeg (old ++ '-' :: suffix) = suffix := lastSeg_append old suffix hHySuf
  have hNoAtNew : ∀ c ∈ old ++ '-' :: suffix, c ≠ '@' := by
    intro c hc
    rcases List.mem_append.mp hc with h | h
    · exact fun hEq => hAtOld (hEq ▸ h)
    · rcases List.mem_cons.mp h with h | h
      · subst h; decide
      · exact fun hEq => hAtSuf (hEq ▸ h)
  intro N
  induction N with
  | zero =>
    intro s hs
    have : s = [] := List.length_eq_zero.mp (Nat.le_zero.mp hs)
    subst this
    simp [replaceMentions_nil]
  | succ N ih =>
    intro s hs
    cases s with
    | nil => simp [replaceMentions_nil]
    | cons c rest =>
      by_cases hm : matchesAt old (lastSeg (old ++ '-' :: suffix)) (c :: rest)
      · -- a match at the head: the emitted `@old-suffix` is protected by the
        -- negative lookahead on the second pass
        rw [replaceMentions_cons_match old _ c rest hm]
        have hpre : ('@' :: old) <+: (c :: rest) := by
          have := hm
          unfold matchesAt at this
          simp only [Bool.and_eq_true, List.isPrefixOf_iff_prefix] at this
          exact this.1.1
        obtain ⟨t, ht⟩ := hpre
        simp only [List.cons_append, List.cons.injEq] at ht
        obtain ⟨hc, hr⟩ := ht
        subst hc
        rw [← hr, List.drop_left]
        have hsplit : ('@' :: (old ++ '-' :: suffix)) ++
              replaceMentions old (old ++ '-' :: suffix) t
            = '@' :: ((old ++ '-' :: suffix) ++
              replaceMentions old (old ++ '-' :: suffix) t) := by simp
        rw [hsplit]
        have hdrop : ((old ++ '-' :: suffix) ++
              replaceMentions old (old ++ '-' :: suffix) t).drop old.length
            = ('-' :: suffix) ++ replaceMentions old (old ++ '-' :: suffix) t := by
          rw [List.append_assoc, List.drop_left]
        have hnm : ¬ matchesAt old (lastSeg (old ++ '-' :: suffix))
            ('@' :: ((old ++ '-' :: suffix) ++
              replaceMentions old (old ++ '-' :: suffix) t)) := by
          rw [hlast, matchesAt_cons_at_iff]
          rintro ⟨-, hla, -⟩
          exact hla (by
            rw [hdrop]
            exact ⟨replaceMentions old (old ++ '-' :: suffix) t, rfl⟩)
        have hlen : t.length ≤ N := by
          rw [← hr] at hs
          simp [List.length_append] at hs
          omega
        rw [replaceMentions_cons_nomatch old _ '@' _ hnm,
          replaceMentions_append_no_at old _ (old ++ '-' :: suffix) _ hNoAtNew,
          ih t hlen]
      · -- no match at the head: a failed match attempt fails again on the
        -- second pass, for the same reason
        rw [replaceMentions_cons_nomatch old _ c rest hm]
        have hlenr : rest.length ≤ N := by simp at hs; omega
        by_cases hc : c = '@'
        · subst hc
          rw [hlast, matchesAt_cons_at_iff] at hm
          push_neg at hm
          by_cases hp : old <+: rest
          · obtain ⟨t, ht⟩ := hp
            by_cases hla : ('-' :: suffix) <+: rest.drop old.length
            · -- the negative lookahead rejected the match; it still rejects it
              rw [← ht, List.drop_left] at hla
              obtain ⟨u, hu⟩ := hla
              have hrw : rest = (old ++ '-' :: suffix) ++ u := by
                rw [← ht, ← hu]; simp
              have h1 : replaceMentions old (old ++ '-' :: suffix) rest
                  = (old ++ '-' :: suffix) ++
                    replaceMentions old (old ++ '-' :: suffix) u := by
                rw [hrw, replaceMentions_append_no_at old _ _ _ hNoAtNew]
              have hnm2 : ¬ matchesAt old (lastSeg (old ++ '-' :: suffix))
                  ('@' :: ((old ++ '-' :: suffix) ++
                    replaceMentions old (old ++ '-' :: suffix) u)) := by
                rw [hlast, matchesAt_cons_at_iff]
                rintro ⟨-, hla2, -⟩
                exact hla2 (by
                  rw [List.append_assoc, List.drop_left]
                  exact ⟨replaceMentions old (old ++ '-' :: suffix) u, rfl⟩)
              have hlenu : u.length ≤ N := by
                have : rest.length = old.length + 1 + suffix.length + u.length := by
                  rw [hrw]; simp [List.length_append]; omega
                omega
              rw [h1, replaceMentions_cons_nomatch old _ '@' _ hnm2,
                replaceMentions_append_no_at old _ _ _ hNoAtNew, ih u hlenu]
            · -- the word-boundary check rejected the match; the head character
              -- after `old` is preserved by the pass, so it rejects it again
              have hb : isWordChar (('@' :: old).getLast (by simp))
                  = nextIsWord (rest.drop old.length) := hm ⟨t, ht⟩ hla
              have hOldNoAt : ∀ d ∈ old, d ≠ '@' := fun d hd hEq => hAtOld (hEq ▸ hd)
              have h1 : replaceMentions old (old ++ '-' :: suffix) rest
                  = old ++ replaceMentions old (old ++ '-' :: suffix) t := by
                rw [← ht, replaceMentions_append_no_at old _ _ _ hOldNoAt]
              have hnm2 : ¬ matchesAt old (lastSeg (old ++ '-' :: suffix))
                  ('@' :: (old ++ replaceMentions old (old ++ '-' :: suffix) t)) := by
                rw [hlast, matchesAt_cons_at_iff]
                rintro ⟨-, -, hbe⟩
                apply hbe
                rw [List.drop_left, nextIsWord_congr (head_replaceMentions old suffix t)]
                rw [← ht, List.drop_left] at hb
                exact hb
              have hlent : t.length ≤ N := by
                have : old.length + t.length = rest.length := by
                  rw [← ht]; simp [List.length_append]
                omega
              rw [h1, replaceMentions_cons_nomatch old _ '@' _ hnm2,
                replaceMentions_append_no_at old _ _ _ hOldNoAt, ih t hlent]
          · -- `old` was not present after the `@`; the pass cannot create it
            have hnm2 : ¬ matchesAt old (lastSeg (old ++ '-' :: suffix))
                ('@' :: replaceMentions old (old ++ '-' :: suffix) rest) := by
              rw [hlast, matchesAt_cons_at_iff]
              rintro ⟨hpre2, -, -⟩
              exact (not_prefix_replaceMentions old suffix rest hp) hpre2
            rw [replaceMentions_cons_nomatch old _ '@' _ hnm2, ih rest hlenr]
        · rw [replaceMentions_cons_nomatch old _ c _
            (matchesAt_false_of_head_ne old _ c _ hc), ih rest hlenr]

/-- Text entirely free of `@` is a fixed point of a single-entry pass. -/
theorem replaceMentions_no_at (old new : List Char) (s : List Char)
    (h : ∀ c ∈ s, c ≠ '@') : replaceMentions old new s = s := by
  have := replaceMentions_append_no_at old new s [] h
  simpa [replaceMentions_nil] using this

/-- Text entirely free of `@` is a fixed point of the whole entry loop. -/
theorem substituteAll_no_at :
    ∀ (m : List (List Char × List Char)) (s : List Char),
      (∀ c ∈ s, c ≠ '@') → substituteAll s m = s := by
  intro m
  induction m with
  | nil => intro s _; rfl
  | cons e m' ih =>
    intro s h
    show substituteAll (replaceMentions e.1 e.2 s) m' = s
    rw [replaceMentions_no_at e.1 e.2 s h]
    exact ih s h

/-- An `@`-free prefix of the text passes through the whole entry loop
untouched: every rewrite starts at an `@`. -/
theorem substituteAll_append_no_at :
    ∀ (m : List (List Char × List Char)) (a x : List Char),
      (∀ c ∈ a, c ≠ '@') → substituteAll (a ++ x) m = a ++ substituteAll x m := by
  intro m
  induction m with
  | nil => intro a x _; rfl
  | cons e m' ih =>
    intro a x h
    show substituteAll (replaceMentions e.1 e.2 (a ++ x)) m'
      = a ++ substituteAll (replaceMentions e.1 e.2 x) m'
    rw [replaceMentions_append_no_at e.1 e.2 a x h, ih a _ h]

theorem substituteAll_single (e : List Char × List Char) (s : List Char) :
    substituteAll s [e] = replaceMentions e.1 e.2 s := rfl

/-- Idempotence of the substitution engine for a migration-shaped
mapping entry, lifted to the `string | null` interface. -/
theorem updateUsernames_idem_single (old suffix T : String)
    (hOld : old.data ≠ []) (hOldChars : ∀ c ∈ old.data, isWordChar c ∨ c = '-')
    (hSuf : suffix.data ≠ []) (hSufChars : ∀ c ∈ suffix.data, isWordChar c) :
    updateUsernamesInReleaseNotes
        (updateUsernamesInReleaseNotes (some T) [(old, old ++ "-" ++ suffix)])
        [(old, old ++ "-" ++ suffix)]
      = updateUsernamesInReleaseNotes (some T) [(old, old ++ "-" ++ suffix)] := by
  have hAtOld : '@' ∉ old.data := by
    intro hmem
    rcases hOldChars '@' hmem with h | h
    · exact absurd h (by decide)
    · exact absurd h (by decide)
  have hAtSuf : '@' ∉ suffix.data := by
    intro hmem
    exact absurd (hSufChars '@' hmem) (by decide)
  have hHySuf : '-' ∉ suffix.data := by
    intro hmem
    exact absurd (hSufChars '-' hmem) (by decide)
  have hdata : (old ++ "-" ++ suffix).data = old.data ++ '-' :: suffix.data := by
    simp [String.data_append]
  by_cases hT : T = ""
  · subst hT
    rfl
  · unfold updateUsernamesInReleaseNotes
    simp only [hT, if_false, List.map_cons, List.map_nil]
    set s₁ : List Char :=
      substituteAll T.data [(old.data, (old ++ "-" ++ suffix).data)] with hs₁
    by_cases h₁ : String.mk s₁ = ""
    · simp [h₁]
    · simp only [h₁, if_false, Option.some.injEq]
      congr 1
      show substituteAll s₁ [(old.data, (old ++ "-" ++ suffix).data)] = s₁
      rw [hs₁, substituteAll_single, substituteAll_single]
      simp only [hdata]
      exact replaceMentions_idem_aux old.data suffix.data hAtOld hAtSuf hHySuf
        T.data.length T.data le_rfl

end Migration

namespace Migration

/-! ## Claim theorems for the substitution engine -/

/-- C2 counterexample: the idempotence claim fails as stated.  The
single-entry mapping `{alice ↦ alice-b-c}` satisfies the claim's side
condition (no entry's new handle equals another entry's old handle —
and the new handle is not even equal to its own old handle), yet
applying the engine twice to `"cc @alice"` appends the suffix again:
one pass gives `"cc @alice-b-c"`, a second pass gives
`"cc @alice-b-c-b-c"`, because the negative lookahead guards only
against the final hyphen-delimited segment `-c` of the new handle,
and `@alice` in `@alice-b-c` is followed by `-b`. -/
theorem claim2_counterexample :
    (("alice-b-c" : String) ≠ "alice") ∧
    updateUsernamesInReleaseNotes
        (updateUsernamesInReleaseNotes (some "cc @alice") [("alice", "alice-b-c")])
        [("alice", "alice-b-c")]
      ≠ updateUsernamesInReleaseNotes (some "cc @alice") [("alice", "alice-b-c")] := by
  constructor
  · decide
  · decide

/-- C2 (amended): for a migration-shaped single-entry mapping
`{old ↦ old-suffix}` — `old` a nonempty handle of word characters and
hyphens, `suffix` a nonempty hyphen-free string of word characters, so
that the appended disambiguation suffix is exactly the final
hyphen-delimited segment of the new handle — the substitution engine is
idempotent on every text: `substitute(substitute(T, M), M) =
substitute(T, M)`; in particular re-running substitution on text already
carrying `@old-suffix` leaves it unchanged. -/
theorem claim2_amended_idempotent (old suffix T : String)
    (hOld : old.data ≠ []) (hOldChars : ∀ c ∈ old.data, isWordChar c ∨ c = '-')
    (hSuf : suffix.data ≠ []) (hSufChars : ∀ c ∈ suffix.data, isWordChar c) :
    updateUsernamesInReleaseNotes
        (updateUsernamesInReleaseNotes (some T) [(old, old ++ "-" ++ suffix)])
        [(old, old ++ "-" ++ suffix)]
      = updateUsernamesInReleaseNotes (some T) [(old, old ++ "-" ++ suffix)] :=
  updateUsernames_idem_single old suffix T hOld hOldChars hSuf hSufChars

/-- Witness for the amended C2 at the spec's own example
`{nghia-nguyen ↦ nghia-nguyen-4321}` on `"cc @nghia-nguyen"`. -/
theorem claim2_amended_idempotent_witness :
    (("nghia-nguyen" : String).data ≠ [] ∧
      (∀ c ∈ ("nghia-nguyen" : String).data, isWordChar c ∨ c = '-') ∧
      ("4321" : String).data ≠ [] ∧
      (∀ c ∈ ("4321" : String).data, isWordChar c)) ∧
    updateUsernamesInReleaseNotes
        (updateUsernamesInReleaseNotes (some "cc @nghia-nguyen")
          [("nghia-nguyen", "nghia-nguyen" ++ "-" ++ "4321")])
        [("nghia-nguyen", "nghia-nguyen" ++ "-" ++ "4321")]
      = updateUsernamesInReleaseNotes (some "cc @nghia-nguyen")
          [("nghia-nguyen", "nghia-nguyen" ++ "-" ++ "4321")] :=
  ⟨⟨by decide, by decide, by decide, by decide⟩,
    claim2_amended_idempotent "nghia-nguyen" "4321" "cc @nghia-nguyen"
      (by decide) (by decide) (by decide) (by decide)⟩

/-- C5: only `@`-prefixed mentions are rewritten.  First conjunct: the
spec's example — a bare `alice` with no leading `@` is untouched even
though it exactly equals the mapping key, while `@alice` is rewritten.
Second conjunct: in general, any `@`-free region of the text passes
through the engine verbatim, for every mapping and every continuation of
the text: rewrites can only take place at an `@`. -/
theorem claim5_only_mentions_rewritten :
    (updateUsernamesInReleaseNotes (some "Thanks @alice and alice for the fix")
        [("alice", "bob")]
      = some "Thanks @bob and alice for the fix") ∧
    (∀ (a x : List Char) (m : List (List Char × List Char)),
      (∀ c ∈ a, c ≠ '@') → substituteAll (a ++ x) m = a ++ substituteAll x m) := by
  constructor
  · decide
  · intro a x m h
    exact substituteAll_append_no_at m a x h

/-- Witness for C5's general conjunct: the mapped key `alice` occurring
bare (not `@`-prefixed) in the region `"alice and "` is preserved
verbatim in front of the rewritten continuation `"@alice"`. -/
theorem claim5_only_mentions_rewritten_witness :
    (∀ c ∈ ("alice and " : String).data, c ≠ '@') ∧
    substituteAll (("alice and " : String).data ++ ("@alice" : String).data)
        [(("alice" : String).data, ("bob" : String).data)]
      = ("alice and " : String).data ++
        substituteAll (("@alice" : String).data)
          [(("alice" : String).data, ("bob" : String).data)] :=
  ⟨by decide,
    claim5_only_mentions_rewritten.2 ("alice and " : String).data
      ("@alice" : String).data [(("alice" : String).data, ("bob" : String).data)]
      (by decide)⟩

/-- C6: a text with no `@` character at all is returned unchanged by the
substitution engine, for every mapping. -/
theorem claim6_no_at_noop (T : String) (m : List (String × String))
    (h : ∀ c ∈ T.data, c ≠ '@') :
    updateUsernamesInReleaseNotes (some T) m = some T := by
  unfold updateUsernamesInReleaseNotes
  by_cases hT : T = ""
  · simp [hT]
  · simp only [hT, if_false, Option.some.injEq]
    rw [substituteAll_no_at _ _ h]

/-- Witness for C6 on a concrete mention-free text. -/
theorem claim6_no_at_noop_witness :
    (∀ c ∈ ("Release notes: bug fixes and performance improvements" : String).data,
      c ≠ '@') ∧
    updateUsernamesInReleaseNotes
        (some "Release notes: bug fixes and performance improvements")
        [("alice", "bob"), ("nghia-nguyen", "nghia-nguyen-4321")]
      = some "Release notes: bug fixes and performance improvements" :=
  ⟨by decide,
    claim6_no_at_noop "Release notes: bug fixes and performance improvements"
      [("alice", "bob"), ("nghia-nguyen", "nghia-nguyen-4321")] (by decide)⟩

end Migration

namespace Migration

/-! ## Supporting lemmas for the orchestrator and restore claims -/

theorem processReleasesLoop_noop (env : RepoEnv) (m : List (String × String)) :
    ∀ (releases : List RemoteRelease),
      (∀ r ∈ releases, updateUsernamesInReleaseNotes r.body m = r.body) →
      processReleasesLoop env m releases = (0, []) := by
  intro releases
  induction releases with
  | nil => intro _; rfl
  | cons r rest ih =>
    intro h
    have hstep : updateRelease env m r.id r = (false, []) := by
      unfold updateRelease
      rw [if_pos (h r (by simp))]
    simp only [processReleasesLoop, hstep, ih (fun x hx => h x (by simp [hx]))]
    rfl

theorem restoreLoop_spec (ok : Nat → Bool) (cur : List RemoteRelease) :
    ∀ (bs : List BackupRelease),
      (restoreLoop ok cur bs).2
        = bs.filterMap (fun b =>
            (cur.find? (fun r => r.tag_name == b.tag_name)).map
              (fun c => (c.id, b.body))) ∧
      (restoreLoop ok cur bs).1
        = ((restoreLoop ok cur bs).2.filter (fun call => ok call.1)).length := by
  intro bs
  induction bs with
  | nil => exact ⟨rfl, rfl⟩
  | cons b rest ih =>
    cases hfind : cur.find? (fun r => r.tag_name == b.tag_name) with
    | none =>
      simp only [restoreLoop, hfind, List.filterMap_cons, Option.map_none']
      exact ih
    | some c =>
      simp only [restoreLoop, hfind, List.filterMap_cons, Option.map_some',
        restoreRelease, List.singleton_append, List.filter_cons, ih.1, ih.2]
      refine ⟨by trivial, ?_⟩
      by_cases hok : ok c.id
      · simp [hok, Nat.add_comm]
      · simp [hok]

theorem backupIndexLoop_invariant :
    ∀ (scan : List BackupIndexEntry) (idx : BackupIndex),
      ((scan.foldl (fun idx entry =>
          { idx with
            repositories := idx.repositories ++ [entry],
            total_repositories := idx.total_repositories + 1 }) idx).total_releases
        = idx.total_releases) ∧
      ((scan.foldl (fun idx entry =>
          { idx with
            repositories := idx.repositories ++ [entry],
            total_repositories := idx.total_repositories + 1 }) idx).total_repositories
        = idx.total_repositories + scan.length) ∧
      ((scan.foldl (fun idx entry =>
          { idx with
            repositories := idx.repositories ++ [entry],
            total_repositories := idx.total_repositories + 1 }) idx).repositories
        = idx.repositories ++ scan) := by
  intro scan
  induction scan with
  | nil => intro idx; simp
  | cons e rest ih =>
    intro idx
    simp only [List.foldl_cons]
    obtain ⟨h1, h2, h3⟩ := ih
      { idx with
        repositories := idx.repositories ++ [e],
        total_repositories := idx.total_repositories + 1 }
    refine ⟨h1, ?_, ?_⟩
    · rw [h2]; simp [List.length_cons]; omega
    · rw [h3]; simp

end Migration

namespace Migration

/-! ## Claim theorems for backup, orchestrator and restore -/

/-- C1 is violated by the code at this input: the backup write fails
(`createBackup` returns `null`), yet `processRepositoryReleases` — which
never inspects the returned `backupFile` — still issues the per-release
update call and reports the release as updated.  The repository's update
phase is not skipped. -/
theorem claim1_backup_failure_still_updates :
    ((processRepositoryReleases
        { listing := some [⟨1, "v1.0.0", "v1", some "thanks @alice",
            "2024-01-01", "2024-01-02", "https://x/1", false, false, "main"⟩],
          backupWriteOk := false, now := "2024-03-01T00:00:00.000Z",
          updateOk := fun _ => true }
        [("alice", "alice-4321")] "acme" "widgets").2.backupWritten = false) ∧
    ((processRepositoryReleases
        { listing := some [⟨1, "v1.0.0", "v1", some "thanks @alice",
            "2024-01-01", "2024-01-02", "https://x/1", false, false, "main"⟩],
          backupWriteOk := false, now := "2024-03-01T00:00:00.000Z",
          updateOk := fun _ => true }
        [("alice", "alice-4321")] "acme" "widgets").1.backupFile = none) ∧
    ((processRepositoryReleases
        { listing := some [⟨1, "v1.0.0", "v1", some "thanks @alice",
            "2024-01-01", "2024-01-02", "https://x/1", false, false, "main"⟩],
          backupWriteOk := false, now := "2024-03-01T00:00:00.000Z",
          updateOk := fun _ => true }
        [("alice", "alice-4321")] "acme" "widgets").2.updateCalls
      = [(1, some "thanks @alice-4321")]) ∧
    ((processRepositoryReleases
        { listing := some [⟨1, "v1.0.0", "v1", some "thanks @alice",
            "2024-01-01", "2024-01-02", "https://x/1", false, false, "main"⟩],
          backupWriteOk := false, now := "2024-03-01T00:00:00.000Z",
          updateOk := fun _ => true }
        [("alice", "alice-4321")] "acme" "widgets").1.updated = 1) := by
  refine ⟨?_, ?_, ?_, ?_⟩ <;> decide

/-- C3: a release is mutated if and only if its computed
post-substitution body differs from its current body.  First conjunct:
`updateRelease` issues exactly one update-body call (carrying the
computed body) when the computed body differs, and no call otherwise —
in particular a call is issued iff the bodies differ, independently of
whether the remote call then succeeds.  Second conjunct: when every
release's computed body equals its current body, the repository reports
`updated = 0` and the trace contains zero write calls. -/
theorem claim3_update_iff_body_changed :
    (∀ (env : RepoEnv) (m : List (String × String)) (r : RemoteRelease),
      ((updateRelease env m r.id r).2
        = (if updateUsernamesInReleaseNotes r.body m = r.body then []
           else [(r.id, updateUsernamesInReleaseNotes r.body m)])) ∧
      ((updateRelease env m r.id r).2 ≠ [] ↔
        updateUsernamesInReleaseNotes r.body m ≠ r.body)) ∧
    (∀ (env : RepoEnv) (m : List (String × String)) (owner repo : String)
      (releases : List RemoteRelease),
      env.listing = some releases →
      (∀ r ∈ releases, updateUsernamesInReleaseNotes r.body m = r.body) →
      (processRepositoryReleases env m owner repo).1.updated = 0 ∧
      (processRepositoryReleases env m owner repo).2.updateCalls = []) := by
  constructor
  · intro env m r
    unfold updateRelease
    by_cases hch : updateUsernamesInReleaseNotes r.body m = r.body
    · rw [if_pos hch, if_pos hch]
      simp [hch]
    · rw [if_neg hch, if_neg hch]
      by_cases hok : env.updateOk r.id
      · rw [if_pos hok]; simp [hch]
      · rw [if_neg hok]; simp [hch]
  · intro env m owner repo releases hlist hall
    have hget : getAllReleases env = releases := by
      unfold getAllReleases; rw [hlist]
    unfold processRepositoryReleases
    rw [hget]
    by_cases hlen : releases.length = 0
    · rw [if_pos hlen]; exact ⟨rfl, rfl⟩
    · rw [if_neg hlen, processReleasesLoop_noop env m releases hall]
      exact ⟨rfl, rfl⟩

/-- Witness for C3's second conjunct: a repository with one release whose
body carries no mapped mention reports `updated = 0` and an empty list of
issued write calls. -/
theorem claim3_update_iff_body_changed_witness :
    (({ listing := some [⟨7, "v1.0.0", "one", some "plain notes",
          "c", "p", "u", false, false, "main"⟩],
        backupWriteOk := true, now := "2024-03-01T00:00:00.000Z",
        updateOk := fun _ => true } : RepoEnv)).listing
      = some [⟨7, "v1.0.0", "one", some "plain notes",
          "c", "p", "u", false, false, "main"⟩] ∧
    ((processRepositoryReleases
        { listing := some [⟨7, "v1.0.0", "one", some "plain notes",
            "c", "p", "u", false, false, "main"⟩],
          backupWriteOk := true, now := "2024-03-01T00:00:00.000Z",
          updateOk := fun _ => true }
        [("alice", "bob")] "acme" "widgets").1.updated = 0 ∧
      (processRepositoryReleases
        { listing := some [⟨7, "v1.0.0", "one", some "plain notes",
            "c", "p", "u", false, false, "main"⟩],
          backupWriteOk := true, now := "2024-03-01T00:00:00.000Z",
          updateOk := fun _ => true }
        [("alice", "bob")] "acme" "widgets").2.updateCalls = []) :=
  ⟨rfl,
    claim3_update_iff_body_changed.2
      { listing := some [⟨7, "v1.0.0", "one", some "plain notes",
          "c", "p", "u", false, false, "main"⟩],
        backupWriteOk := true, now := "2024-03-01T00:00:00.000Z",
        updateOk := fun _ => true }
      [("alice", "bob")] "acme" "widgets"
      [⟨7, "v1.0.0", "one", some "plain notes",
        "c", "p", "u", false, false, "main"⟩]
      rfl (by decide)⟩

/-- C4 is violated by the code at this input: with two backup files for
the selected repository, in directory-listing (lexicographic) order, the
restore tool replays `backup_files[0]` — the 2024 file — although the
most recent backup (the spec's choice, greatest embedded timestamp) is
the 2025 file.  The code performs no sorting or timestamp comparison
despite its own comment `// Use the most recent backup file`. -/
theorem claim4_first_listed_not_most_recent :
    (selectedBackupFile sampleBackupEntry
      = some "./backups/acme/widgets/releases-backup-2024-01-01T00-00-00-000Z.json") ∧
    (latestBackupFileBySpec sampleBackupEntry
      = some "./backups/acme/widgets/releases-backup-2025-06-01T00-00-00-000Z.json") ∧
    (("./backups/acme/widgets/releases-backup-2024-01-01T00-00-00-000Z.json" : String)
      ≠ "./backups/acme/widgets/releases-backup-2025-06-01T00-00-00-000Z.json") := by
  refine ⟨?_, ?_, ?_⟩ <;> decide

/-- C7: during restore, each backed-up release is matched to a live
release by exact tag-name equality.  The issued update-body calls are
exactly one call per matched entry, carrying the matched live release's
id and the backed-up body verbatim, in backup order; unmatched entries
contribute no call but do not stop later entries (the calls list is a
`filterMap` over all backup entries).  The calls do not depend on
per-release success, so a failed restore does not abort the remaining
ones; `restored` counts exactly the matched calls that succeeded, and
`processed` is the full backup length. -/
theorem claim7_restore_matching (ok : Nat → Bool) (backupData : BackupData)
    (currentReleases : List RemoteRelease) :
    ((restoreRepositoryFromBackup ok backupData currentReleases).2
      = backupData.releases.filterMap (fun b =>
          (currentReleases.find? (fun r => r.tag_name == b.tag_name)).map
            (fun c => (c.id, b.body)))) ∧
    ((restoreRepositoryFromBackup ok backupData currentReleases).1.processed
      = backupData.releases.length) ∧
    ((restoreRepositoryFromBackup ok backupData currentReleases).1.restored
      = ((restoreRepositoryFromBackup ok backupData currentReleases).2.filter
          (fun call => ok call.1)).length) := by
  unfold restoreRepositoryFromBackup
  by_cases hlen : backupData.releases.length = 0
  · have hnil : backupData.releases = [] := List.length_eq_zero.mp hlen
    rw [if_pos hlen, hnil]
    exact ⟨rfl, by simp [hnil ▸ hlen], rfl⟩
  · rw [if_neg hlen]
    obtain ⟨h1, h2⟩ := restoreLoop_spec ok currentReleases backupData.releases
    exact ⟨h1, rfl, h2⟩

/-- C8: whenever `createBackup` succeeds, the written record has
`total_releases` equal to the length of the input release list, its
`releases` are exactly the seven-field projections of the inputs (all
other remote fields — draft/prerelease/target branch — are discarded by
`backupReleaseOfRemote`, and `BackupRelease` has no further fields), and
the backed-up tag names appear in input order. -/
theorem claim8_backup_record (writeOk : Bool) (now owner repo : String)
    (releases : List RemoteRelease) (options : BackupOptions)
    (path : String) (data : BackupData)
    (h : createBackup writeOk now owner repo releases options = some (path, data)) :
    data.total_releases = releases.length ∧
    data.releases = releases.map backupReleaseOfRemote ∧
    data.releases.map (fun b => b.tag_name) = releases.map (fun r => r.tag_name) := by
  unfold createBackup at h
  cases writeOk with
  | false => simp at h
  | true =>
    simp only [if_true, Option.some.injEq, Prod.mk.injEq] at h
    obtain ⟨-, hd⟩ := h
    subst hd
    refine ⟨rfl, rfl, ?_⟩
    simp only [List.map_map]
    exact List.map_congr_left fun r _ => rfl

/-- Witness for C8: a successful backup of the two sample releases for
`acme/widgets` writes `sampleBackupDocument`, whose `total_releases`,
captured fields and tag-name order follow the input. -/
theorem claim8_backup_record_witness :
    (createBackup true "2024-01-01T00:00:00.000Z" "acme" "widgets"
        sampleReleases {}
      = some ("./backups/acme/widgets/releases-backup-2024-01-01T00-00-00-000Z.json",
          sampleBackupDocument)) ∧
    (sampleBackupDocument.total_releases = sampleReleases.length ∧
      sampleBackupDocument.releases = sampleReleases.map backupReleaseOfRemote ∧
      sampleBackupDocument.releases.map (fun b => b.tag_name)
        = sampleReleases.map (fun r => r.tag_name)) :=
  ⟨by decide,
    claim8_backup_record true "2024-01-01T00:00:00.000Z" "acme" "widgets"
      sampleReleases {}
      "./backups/acme/widgets/releases-backup-2024-01-01T00-00-00-000Z.json"
      sampleBackupDocument (by decide)⟩

/-- C9: whatever the filesystem scan finds — any number of repositories,
each with any number of backup files — the index document written by
`createBackupIndex` always carries `total_releases = 0`: the field is
initialised to zero and the scan loop only ever increments
`total_repositories` (which does track the scan) and pushes entries. -/
theorem claim9_index_total_releases_zero (now : String)
    (scan : List BackupIndexEntry) :
    (createBackupIndex now scan).total_releases = 0 ∧
    (createBackupIndex now scan).total_repositories = scan.length ∧
    (createBackupIndex now scan).repositories = scan := by
  unfold createBackupIndex
  obtain ⟨h1, h2, h3⟩ := backupIndexLoop_invariant scan
    { created_at := now, total_repositories := 0, total_releases := 0,
      repositories := [] }
  exact ⟨h1, by rw [h2]; simp, by rw [h3]; simp⟩

/-- C10: when the list-releases call fails, `getAllReleases` returns the
empty list, so the orchestrator reports `{processed: 0, updated: 0}`
with no error flag, attempts no backup and issues no update call — the
whole outcome is exactly equal to that of a repository whose listing
genuinely returned zero releases. -/
theorem claim10_listing_failure_indistinguishable (env : RepoEnv)
    (m : List (String × String)) (owner repo : String)
    (h : env.listing = none) :
    (processRepositoryReleases env m owner repo
      = processRepositoryReleases { env with listing := some [] } m owner repo) ∧
    ((processRepositoryReleases env m owner repo).1
      = { processed := 0, updated := 0, error := false, backupFile := none }) ∧
    ((processRepositoryReleases env m owner repo).2
      = { backupAttempted := false, backupWritten := false, updateCalls := [] }) := by
  have hget : getAllReleases env = [] := by
    unfold getAllReleases; rw [h]
  have hget2 : getAllReleases { env with listing := some [] } = [] := rfl
  unfold processRepositoryReleases
  rw [hget, hget2]
  exact ⟨rfl, rfl, rfl⟩

/-- Witness for C10 on a concrete failing environment. -/
theorem claim10_listing_failure_witness :
    (({ listing := none, backupWriteOk := true, now := "t",
        updateOk := fun _ => false } : RepoEnv)).listing = none ∧
    ((processRepositoryReleases
        { listing := none, backupWriteOk := true, now := "t",
          updateOk := fun _ => false }
        [("alice", "bob")] "acme" "widgets").1
      = { processed := 0, updated := 0, error := false, backupFile := none }) :=
  ⟨rfl,
    (claim10_listing_failure_indistinguishable
      { listing := none, backupWriteOk := true, now := "t",
        updateOk := fun _ => false }
      [("alice", "bob")] "acme" "widgets" rfl).2.1⟩

end Migration
